import Mathlib

/-!
Shallow embedding of the tangle-detection logic of `list_tangled_commits.py`
and `list_tangled_lines.py` (export_lltc4j repository).

Modelling conventions:
* `Hunk.content` holds the hunk text already split into lines, i.e. the value
  of `hunk.content.splitlines()` in the scripts (the spec's "ordered sequence
  of text lines").
* `Hunk.lines_verified` is the dict `hunk.lines_verified`, modelled as an
  association list in insertion order; offsets are Python ints (`Int`).
* Mongo queries `File.objects(id=x).get()` are modelled by an explicit lookup
  function `db : Nat → Option File`; `none` stands for the `DoesNotExist`
  exception. `FileAction` carries its hunks directly, standing for
  `Hunk.objects(file_action_id=fa.id)`.
* Python exceptions are modelled by `Except String` results (`IndexError`,
  `DoesNotExist`, `ValueError`) or by dedicated error constructors.
* The `defaultlist` used by `has_tangled_lines` is modelled exactly,
  including Python's negative-index semantics and its truthiness test
  `if line_labels[i]:` (`None` and the empty string are falsy).
-/

/-- A file of the LLTC4J dataset; only its `path` is used by the scripts. -/
structure File where
  path : String
deriving DecidableEq, Repr

/-- A diff hunk: its content (as split lines) and the verified
label-to-offsets mapping. -/
structure Hunk where
  content : List String
  lines_verified : List (String × List Int)
deriving DecidableEq, Repr

/-- One file's change inside a commit.  `mode` is the pycoshark action mode
(for instance `"R"` for renames); the hunks of the action are attached
directly. -/
structure FileAction where
  file_id : Option Nat
  old_file_id : Option Nat
  mode : String
  hunks : List Hunk
deriving DecidableEq, Repr

/-- A commit: its hash, its label dict (possibly absent) and its parents. -/
structure Commit where
  revision_hash : String
  labels : Option (List (String × Bool))
  parents : List Nat
deriving DecidableEq, Repr

/-- Python `s.endswith(pat)`. -/
def strEndsWith (s pat : String) : Bool := pat.data.isSuffixOf s.data

/-- Occurrence check for `pat` inside a character list. -/
def containsSub (pat : List Char) : List Char → Bool
  | [] => pat.isEmpty
  | c :: rest => pat.isPrefixOf (c :: rest) || containsSub pat rest

/-- Python `pat in s` (substring containment). -/
def strContains (s pat : String) : Bool := containsSub pat.data s.data

/-- Python truthiness of an entry of the `defaultlist`: the default `None`
and the empty string are falsy, every other string is truthy. -/
def truthy : Option String → Bool
  | none => false
  | some s => s != ""

/-- The `defaultlist.__fill` growth of the sparse line-label array up to
index `n` (new cells hold the default `None`). -/
def dlGrow (s : List (Option String)) (n : Nat) : List (Option String) :=
  s ++ List.replicate (n + 1 - s.length) none

/-- `defaultlist.__getitem__`: non-negative indices grow the list and read;
negative indices use plain Python list indexing (which can raise
`IndexError`, modelled by `none`).  Returns the possibly grown list together
with the value read. -/
def dlRead (s : List (Option String)) (i : Int) :
    Option (List (Option String) × Option String) :=
  if 0 ≤ i then
    some (dlGrow s i.toNat, (dlGrow s i.toNat).getD i.toNat none)
  else if (-i).toNat ≤ s.length then
    some (s, s.getD (s.length - (-i).toNat) none)
  else none

/-- `defaultlist.__setitem__` of `some label`, with the same index
semantics as `dlRead`. -/
def dlWrite (s : List (Option String)) (i : Int) (label : String) :
    Option (List (Option String)) :=
  if 0 ≤ i then
    some ((dlGrow s i.toNat).set i.toNat (some label))
  else if (-i).toNat ≤ s.length then
    some (s.set (s.length - (-i).toNat) (some label))
  else none

/-- Plain Python list indexing `l[i]` on the split hunk content
(used by the diagnostic print); `none` is `IndexError`. -/
def pyGet (l : List String) (i : Int) : Option String :=
  if 0 ≤ i then
    if i.toNat < l.length then some (l.getD i.toNat "") else none
  else if (-i).toNat ≤ l.length then
    some (l.getD (l.length - (-i).toNat) "")
  else none

/-- Outcome of running the inner loops of `has_tangled_lines` on one hunk:
either the updated line-label array, or a detected tangled line (stored
label, current label, reported line text), or an uncaught `IndexError`. -/
inductive StepRes where
  | cont (s : List (Option String)) : StepRes
  | tang (stored label line : String) : StepRes
  | err : StepRes
deriving DecidableEq, Repr

/-- The loop `for i in offset_line_numbers` of `has_tangled_lines`:
read `line_labels[i]`; on a truthy value report the tangled line (the
diagnostic print indexes the hunk content, which can raise `IndexError`);
otherwise store the current label and continue. -/
def procOffsets (content : List String) (label : String) :
    List Int → List (Option String) → StepRes
  | [], s => .cont s
  | i :: rest, s =>
    match dlRead s i with
    | none => .err
    | some (s₁, v) =>
      if truthy v then
        match pyGet content i, v with
        | some line, some stored => .tang stored label line
        | _, _ => .err
      else
        match dlWrite s₁ i label with
        | none => .err
        | some s₂ => procOffsets content label rest s₂

/-- The loop `for label, offset_line_numbers in hunk.lines_verified.items()`
of `has_tangled_lines`, threading the `defaultlist` state. -/
def procLabels (content : List String) :
    List (String × List Int) → List (Option String) → StepRes
  | [], s => .cont s
  | (label, offs) :: rest, s =>
    match procOffsets content label offs s with
    | .cont s₁ => procLabels content rest s₁
    | r => r

/-- Overall result of `has_tangled_lines`: `tangled` carries the two
reported labels and the reported line text (the `return True` path),
`clean` is `return False`, `ixError` an uncaught `IndexError`. -/
inductive LineDetect where
  | tangled (stored label line : String) : LineDetect
  | clean : LineDetect
  | ixError : LineDetect
deriving DecidableEq, Repr

/-- `has_tangled_lines(hunks, commit_hash)` of both scripts: per hunk, a
fresh `defaultlist()`, then the nested label/offset loops; the first
detected collision returns immediately. -/
def has_tangled_lines : List Hunk → String → LineDetect
  | [], _ => .clean
  | h :: rest, commit_hash =>
    match procLabels h.content h.lines_verified [] with
    | .cont _ => has_tangled_lines rest commit_hash
    | .tang a b line => .tangled a b line
    | .err => .ixError

/-- Boolean/exception view of `has_tangled_lines`, as its callers see it. -/
def has_tangled_lines_result (hunks : List Hunk) (commit_hash : String) :
    Except String Bool :=
  match has_tangled_lines hunks commit_hash with
  | .tangled _ _ _ => .ok true
  | .clean => .ok false
  | .ixError => .error "IndexError"

/-- Python `set.add` on the `seen_labels` set (modelled as a duplicate-free
list). -/
def insertNew (s : List String) (x : String) : List String :=
  if x ∈ s then s else x :: s

/-- Modelled from the spec: the label sets `LINE_LABELS_CODE`,
`LINE_LABELS_CODE_FIX` and `LINE_LABELS_CODE_NO_FIX` are imported from
`export_lltc4j`, which is not part of the two source files; the spec
describes them as static sets with `CODE_FIX ∪ CODE_NO_FIX ⊆ CODE` and
`CODE_FIX ∩ CODE_NO_FIX = ∅`.  They are therefore passed as explicit
list parameters `CODE`, `FIX`, `NOFIX`.  This is the inner label loop of
`has_tangled_hunks` with its `seen_labels` accumulator. -/
def addCategory (FIX NOFIX : List String) (label : String)
    (seen : List String) : List String :=
  if label ∈ FIX then insertNew seen "fix"
  else if label ∈ NOFIX then insertNew seen "nofix"
  else seen

/-- The `if len(seen_labels) == 2: return True` loop body applied along the
label list. -/
def hunkSeen (CODE FIX NOFIX : List String) :
    List (String × List Int) → List String → Bool
  | [], _ => false
  | (label, _) :: rest, seen =>
    if label ∉ CODE then hunkSeen CODE FIX NOFIX rest seen
    else if (addCategory FIX NOFIX label seen).length == 2 then true
    else hunkSeen CODE FIX NOFIX rest (addCategory FIX NOFIX label seen)

/-- `has_tangled_hunks(hunks, commit_hash)`: per hunk a fresh `seen_labels`
set; returns true as soon as one hunk has seen both categories. -/
def has_tangled_hunks (CODE FIX NOFIX : List String) :
    List Hunk → String → Bool
  | [], _ => false
  | h :: rest, commit_hash =>
    if hunkSeen CODE FIX NOFIX h.lines_verified [] then true
    else has_tangled_hunks CODE FIX NOFIX rest commit_hash

/-- `is_java_file(file)` of `list_tangled_commits.py`. -/
def is_java_file (file : File) : Bool := strEndsWith file.path ".java"

/-- `is_test_file(file)` of `list_tangled_commits.py`. -/
def is_test_file (file : File) : Bool :=
  strContains file.path "test/" || strContains file.path "tests/" ||
    strEndsWith file.path "Test.java" || strEndsWith file.path "Tests.java"

/-- The inline skip condition of `is_tangled` in `list_tangled_lines.py`:
`not file.path.endswith(".java") or file.path.endswith("Test.java")
or "src/test" in file.path`. -/
def lines_skip_file (file : File) : Bool :=
  !strEndsWith file.path ".java" || strEndsWith file.path "Test.java" ||
    strContains file.path "src/test"

/-- `get_changed_file(fa)` of `list_tangled_commits.py`: prefer `file_id`
when truthy, otherwise fall back to `old_file_id`; `none` models the
`DoesNotExist` exception of a failed `.get()`. -/
def get_changed_file (db : Nat → Option File) (fa : FileAction) : Option File :=
  match fa.file_id with
  | some fid => db fid
  | none => fa.old_file_id.bind db

/-- The inline file resolution of `is_tangled` in `list_tangled_lines.py`:
load the old file when `old_file_id` is truthy; when no file was loaded or
the action is a rename (`mode == "R"`), load the new file instead. -/
def is_tangled_resolve (db : Nat → Option File) (fa : FileAction) : Option File :=
  match fa.old_file_id with
  | none => fa.file_id.bind db
  | some oid =>
    match db oid with
    | none => none
    | some f => if fa.mode = "R" then fa.file_id.bind db else some f

/-- The eligibility conjunction that both scripts inline:
`commit.labels is not None and "validated_bugfix" in commit.labels and
commit.labels["validated_bugfix"] and len(commit.parents) == 1`. -/
def validated_single_parent (c : Commit) : Bool :=
  (match c.labels with
   | some ls =>
     (match ls.lookup "validated_bugfix" with
      | some b => b
      | none => false)
   | none => false) && c.parents.length == 1

/-- The `for fa in FileAction.objects(commit_id=commit.id)` loop of
`is_commit_tangled`: skip out-of-scope files, evaluate the tangle function
on the first in-scope file action and return immediately; falling off the
loop end yields Python's implicit `None`, modelled as `ok none`. -/
def commit_scan (db : Nat → Option File) (commit_hash : String)
    (tangle_func : List Hunk → String → Except String Bool) :
    List FileAction → Except String (Option Bool)
  | [] => .ok none
  | fa :: rest =>
    match get_changed_file db fa with
    | none => .error "DoesNotExist"
    | some file =>
      if !is_java_file file || is_test_file file then
        commit_scan db commit_hash tangle_func rest
      else
        Except.map some (tangle_func fa.hunks commit_hash)

/-- `is_commit_tangled(commit, tangle_func)` of `list_tangled_commits.py`.
The result type `Except String (Option Bool)` records the three outcomes:
an explicit boolean, the implicit `None` fall-through, or an exception. -/
def is_commit_tangled (db : Nat → Option File) (commit : Commit)
    (fas : List FileAction)
    (tangle_func : List Hunk → String → Except String Bool) :
    Except String (Option Bool) :=
  if validated_single_parent commit then
    commit_scan db commit.revision_hash tangle_func fas
  else
    .ok (some false)

/-- The file-action loop of `is_tangled` in `list_tangled_lines.py`, with
its own inline file resolution and filter, always using
`has_tangled_lines`. -/
def tangled_scan (db : Nat → Option File) (commit_hash : String) :
    List FileAction → Except String (Option Bool)
  | [] => .ok none
  | fa :: rest =>
    match is_tangled_resolve db fa with
    | none => .error "DoesNotExist"
    | some file =>
      if lines_skip_file file then tangled_scan db commit_hash rest
      else Except.map some (has_tangled_lines_result fa.hunks commit_hash)

/-- `is_tangled(commit)` of `list_tangled_lines.py`. -/
def is_tangled (db : Nat → Option File) (commit : Commit)
    (fas : List FileAction) : Except String (Option Bool) :=
  if validated_single_parent commit then
    tangled_scan db commit.revision_hash fas
  else
    .ok (some false)

/-- The commit enumeration of `find_tangled_commits`: each entry is a
project name with one commit and its file actions; a commit is appended to
the output exactly when `is_commit_tangled` is truthy (`Some True`), and
exceptions propagate. -/
def find_tangled_commits_loop (db : Nat → Option File)
    (tangle_func : List Hunk → String → Except String Bool) :
    List (String × Commit × List FileAction) →
      Except String (List (String × String))
  | [] => .ok []
  | (pname, c, fas) :: rest =>
    match is_commit_tangled db c fas tangle_func with
    | .error e => .error e
    | .ok r =>
      match find_tangled_commits_loop db tangle_func rest with
      | .error e => .error e
      | .ok tl => .ok (if r.getD false then (pname, c.revision_hash) :: tl else tl)

/-- Dataset accesses performed by a run of `find_tangled_commits`:
the `connect_to_db()` call and the per-commit reads. -/
inductive DbEvent where
  | connect : DbEvent
  | readCommit (commit_hash : String) : DbEvent
deriving DecidableEq, Repr

/-- `find_tangled_commits(tangle_granularity)` of `list_tangled_commits.py`.
The granularity dispatch happens first: an unknown granularity raises
`ValueError` before `connect_to_db()` and before any enumeration.  The
second component is the trace of dataset accesses the run performs
(`connect_to_db` is imported from `export_lltc4j`, outside the two source
files, and is modelled by the `connect` event). -/
def find_tangled_commits (CODE FIX NOFIX : List String)
    (tangle_granularity : String) (db : Nat → Option File)
    (entries : List (String × Commit × List FileAction)) :
    Except String (List (String × String)) × List DbEvent :=
  if tangle_granularity = "hunk" then
    (find_tangled_commits_loop db
        (fun hs h => .ok (has_tangled_hunks CODE FIX NOFIX hs h)) entries,
      DbEvent.connect :: entries.map (fun e => DbEvent.readCommit e.2.1.revision_hash))
  else if tangle_granularity = "line" then
    (find_tangled_commits_loop db has_tangled_lines_result entries,
      DbEvent.connect :: entries.map (fun e => DbEvent.readCommit e.2.1.revision_hash))
  else
    (.error ("ValueError: Unknown tangle granularity: " ++ tangle_granularity), [])

/-! ### Helper lemmas about the sparse line-label array -/

/-- Abstract view of the sparse line-label array: the value at integer
offset `i`, where absent cells and negative offsets read as `none`. -/
def sGet (s : List (Option String)) (i : Int) : Option String :=
  if 0 ≤ i then s.getD i.toNat none else none

theorem dlGrow_getD (s : List (Option String)) (m n : Nat) :
    (dlGrow s m).getD n none = s.getD n none := by
  unfold dlGrow
  rw [List.getD_eq_getElem?_getD, List.getD_eq_getElem?_getD, List.getElem?_append]
  split
  · rfl
  · rw [List.getElem?_replicate, List.getElem?_eq_none (by omega)]
    split <;> rfl

theorem sGet_dlGrow (s : List (Option String)) (m : Nat) (i : Int) :
    sGet (dlGrow s m) i = sGet s i := by
  unfold sGet
  split
  · exact dlGrow_getD s m i.toNat
  · rfl

theorem lt_length_dlGrow (s : List (Option String)) (n : Nat) :
    n < (dlGrow s n).length := by
  unfold dlGrow
  rw [List.length_append, List.length_replicate]
  omega

theorem dlRead_nonneg (s : List (Option String)) {i : Int} (h : 0 ≤ i) :
    dlRead s i = some (dlGrow s i.toNat, sGet s i) := by
  unfold dlRead sGet
  rw [if_pos h, if_pos h, dlGrow_getD]

theorem dlWrite_nonneg (s : List (Option String)) {i : Int} (h : 0 ≤ i)
    (label : String) :
    dlWrite s i label = some ((dlGrow s i.toNat).set i.toNat (some label)) := by
  unfold dlWrite
  rw [if_pos h]

theorem dlGrow_idem (s : List (Option String)) (n : Nat) :
    dlGrow (dlGrow s n) n = dlGrow s n := by
  unfold dlGrow
  rw [List.length_append, List.length_replicate,
    show n + 1 - (s.length + (n + 1 - s.length)) = 0 by omega]
  simp

theorem sGet_dlSet (s : List (Option String)) {i : Int} (hi : 0 ≤ i)
    (label : String) (j : Int) :
    sGet ((dlGrow s i.toNat).set i.toNat (some label)) j =
      if j = i then some label else sGet s j := by
  unfold sGet
  by_cases hj : 0 ≤ j
  · simp only [if_pos hj]
    by_cases hji : j.toNat = i.toNat
    · have hjieq : j = i := by omega
      rw [List.getD_eq_getElem?_getD, hji,
        List.getElem?_set_eq_of_lt _ (lt_length_dlGrow s i.toNat), if_pos hjieq]
      rfl
    · have hjne : j ≠ i := by omega
      rw [List.getD_eq_getElem?_getD, List.getElem?_set_ne (by omega),
        if_neg hjne, ← List.getD_eq_getElem?_getD, dlGrow_getD]
  · simp only [if_neg hj, if_neg (show ¬j = i by omega)]

theorem pyGet_nonneg_lt {l : List String} {i : Int} (h0 : 0 ≤ i)
    (hlt : i.toNat < l.length) : pyGet l i = some (l.getD i.toNat "") := by
  unfold pyGet
  rw [if_pos h0, if_pos hlt]

theorem truthy_iff (v : Option String) :
    truthy v = true ↔ ∃ a, v = some a ∧ a ≠ "" := by
  cases v with
  | none => simp [truthy]
  | some a => simp [truthy, bne_iff_ne]

theorem truthy_some {a : String} (h : a ≠ "") : truthy (some a) = true := by
  simpa [truthy, bne_iff_ne] using h

/-! ### Behaviour of the offset loop of `has_tangled_lines` -/

theorem procOffsets_spec (content : List String) (label : String)
    (hlab : label ≠ "") (offs : List Int) :
    ∀ s : List (Option String), offs.Nodup →
    (∀ i ∈ offs, 0 ≤ i ∧ i.toNat < content.length) →
    (procOffsets content label offs s ≠ .err) ∧
    (∀ a b line, procOffsets content label offs s = .tang a b line →
       b = label ∧ ∃ i ∈ offs, sGet s i = some a ∧ a ≠ "") ∧
    (∀ s', procOffsets content label offs s = .cont s' →
       (∀ i ∈ offs, truthy (sGet s i) = false) ∧
       (∀ j L, sGet s' j = some L → sGet s j = some L ∨ (L = label ∧ j ∈ offs)) ∧
       (∀ j, truthy (sGet s j) = true → truthy (sGet s' j) = true) ∧
       (∀ i ∈ offs, truthy (sGet s' i) = true)) := by
  induction offs with
  | nil =>
    intro s _ _
    refine ⟨by simp [procOffsets], ?_, ?_⟩
    · intro a b line h
      simp [procOffsets] at h
    · intro s' h
      simp only [procOffsets, StepRes.cont.injEq] at h
      subst h
      exact ⟨by simp, fun j L hL => Or.inl hL, fun j h => h, by simp⟩
  | cons i rest ih =>
    intro s hnd hin
    have hi0 : 0 ≤ i := (hin i (List.mem_cons_self i rest)).1
    have hilt : i.toNat < content.length := (hin i (List.mem_cons_self i rest)).2
    have hirest : i ∉ rest := (List.nodup_cons.mp hnd).1
    have hrestnd : rest.Nodup := (List.nodup_cons.mp hnd).2
    have hrestin : ∀ j ∈ rest, 0 ≤ j ∧ j.toNat < content.length :=
      fun j hj => hin j (List.mem_cons_of_mem i hj)
    have hunf : procOffsets content label (i :: rest) s =
        (if truthy (sGet s i) then
          match pyGet content i, sGet s i with
          | some line, some stored => .tang stored label line
          | _, _ => .err
        else
          match dlWrite (dlGrow s i.toNat) i label with
          | none => .err
          | some s₂ => procOffsets content label rest s₂) := by
      simp only [procOffsets, dlRead_nonneg s hi0]
    by_cases ht : truthy (sGet s i) = true
    · obtain ⟨a, ha, hane⟩ := (truthy_iff _).mp ht
      rw [hunf, if_pos ht, pyGet_nonneg_lt hi0 hilt, ha]
      refine ⟨by simp, ?_, ?_⟩
      · intro a' b' line' h
        cases h
        exact ⟨rfl, i, List.mem_cons_self i rest, ha, hane⟩
      · intro s' h
        cases h
    · have ht' : truthy (sGet s i) = false := by
        cases hb : truthy (sGet s i)
        · rfl
        · exact absurd hb ht
      rw [hunf, if_neg (by simp [ht']), dlWrite_nonneg (dlGrow s i.toNat) hi0 label]
      have hgg : dlGrow (dlGrow s i.toNat) i.toNat = dlGrow s i.toNat :=
        dlGrow_idem s i.toNat
      set s₂ := ((dlGrow (dlGrow s i.toNat) i.toNat).set i.toNat (some label)) with hs₂
      have hset : ∀ j, sGet s₂ j = if j = i then some label else sGet s j := by
        intro j
        rw [hs₂, hgg]
        have := sGet_dlSet s hi0 label j
        rw [this]
      obtain ⟨iherr, ihtang, ihcont⟩ := ih s₂ hrestnd hrestin
      refine ⟨iherr, ?_, ?_⟩
      · intro a b line h
        obtain ⟨hb, j, hjmem, hjget, hane⟩ := ihtang a b line h
        have hji : j ≠ i := fun hji => hirest (hji ▸ hjmem)
        rw [hset j, if_neg hji] at hjget
        exact ⟨hb, j, List.mem_cons_of_mem i hjmem, hjget, hane⟩
      · intro s' h
        obtain ⟨c1, c2, c3, c4⟩ := ihcont s' h
        refine ⟨?_, ?_, ?_, ?_⟩
        · intro k hk
          rcases List.mem_cons.mp hk with hk | hk
          · exact hk ▸ ht'
          · have hki : k ≠ i := fun hki => hirest (hki ▸ hk)
            have := c1 k hk
            rw [hset k, if_neg hki] at this
            exact this
        · intro j L hL
          rcases c2 j L hL with hL' | ⟨hLlab, hjmem⟩
          · rw [hset j] at hL'
            by_cases hji : j = i
            · rw [if_pos hji] at hL'
              exact Or.inr ⟨(Option.some.injEq _ _ ▸ hL').symm ▸ rfl,
                hji ▸ List.mem_cons_self i rest⟩
            · rw [if_neg hji] at hL'
              exact Or.inl hL'
          · exact Or.inr ⟨hLlab, List.mem_cons_of_mem i hjmem⟩
        · intro j hj
          refine c3 j ?_
          rw [hset j]
          by_cases hji : j = i
          · rw [if_pos hji]
            exact truthy_some hlab
          · rw [if_neg hji]
            exact hj
        · intro k hk
          rcases List.mem_cons.mp hk with hk | hk
          · refine c3 k ?_
            rw [hset k, if_pos hk]
            exact truthy_some hlab
          · exact c4 k hk

/-! ### Behaviour of the label loop of `has_tangled_lines` -/

theorem procLabels_cons_cont {content : List String} {label : String}
    {offs : List Int} {rest : List (String × List Int)}
    {s s₁ : List (Option String)}
    (h : procOffsets content label offs s = .cont s₁) :
    procLabels content ((label, offs) :: rest) s = procLabels content rest s₁ := by
  have hstep : procLabels content ((label, offs) :: rest) s =
      (match procOffsets content label offs s with
       | .cont s₁ => procLabels content rest s₁
       | r => r) := rfl
  rw [hstep, h]

theorem procLabels_cons_tang {content : List String} {label : String}
    {offs : List Int} {rest : List (String × List Int)}
    {s : List (Option String)} {a b line : String}
    (h : procOffsets content label offs s = .tang a b line) :
    procLabels content ((label, offs) :: rest) s = .tang a b line := by
  have hstep : procLabels content ((label, offs) :: rest) s =
      (match procOffsets content label offs s with
       | .cont s₁ => procLabels content rest s₁
       | r => r) := rfl
  rw [hstep, h]

theorem procLabels_spec (content : List String) (lv : List (String × List Int)) :
    ∀ (prev : List (String × List Int)) (s : List (Option String)),
    (∀ p ∈ lv, p.1 ≠ "") →
    (∀ p ∈ lv, p.2.Nodup) →
    (∀ p ∈ lv, ∀ i ∈ p.2, 0 ≤ i ∧ i.toNat < content.length) →
    ((lv.map Prod.fst).Nodup) →
    (∀ p ∈ prev, ∀ q ∈ lv, p.1 ≠ q.1) →
    (∀ j L, sGet s j = some L → ∃ p ∈ prev, p.1 = L ∧ j ∈ p.2) →
    (∀ p ∈ prev, ∀ i ∈ p.2, truthy (sGet s i) = true) →
    List.Pairwise (fun p q => ∀ i, i ∈ p.2 → i ∉ q.2) prev →
    (procLabels content lv s ≠ .err) ∧
    (∀ a b line, procLabels content lv s = .tang a b line →
       a ≠ b ∧ ∃ j, (∃ pa ∈ prev ++ lv, pa.1 = a ∧ j ∈ pa.2) ∧
         (∃ pb ∈ prev ++ lv, pb.1 = b ∧ j ∈ pb.2)) ∧
    (∀ s', procLabels content lv s = .cont s' →
       List.Pairwise (fun p q => ∀ i, i ∈ p.2 → i ∉ q.2) (prev ++ lv)) := by
  induction lv with
  | nil =>
    intro prev s _ _ _ _ _ _ _ hpw
    refine ⟨by simp [procLabels], ?_, ?_⟩
    · intro a b line h
      simp [procLabels] at h
    · intro s' _
      simpa using hpw
  | cons e rest ih =>
    intro prev s hne hnodup hin hkeys hpk hstored hcov hpw
    obtain ⟨label, offs⟩ := e
    have hlab : label ≠ "" := hne _ (List.mem_cons_self _ _)
    have hoffnd : offs.Nodup := hnodup _ (List.mem_cons_self _ _)
    have hoffin : ∀ i ∈ offs, 0 ≤ i ∧ i.toNat < content.length :=
      hin _ (List.mem_cons_self _ _)
    obtain ⟨poerr, potang, pocont⟩ :=
      procOffsets_spec content label hlab offs s hoffnd hoffin
    cases hpo : procOffsets content label offs s with
    | err => exact absurd hpo poerr
    | tang a b line =>
      have hres := @procLabels_cons_tang content label offs rest s a b line hpo
      refine ⟨(by rw [hres]; intro h; cases h), ?_, ?_⟩
      · intro a' b' line' h
        rw [hres] at h
        cases h
        obtain ⟨hb, i, hioffs, hstoreda, hane⟩ := potang a b line hpo
        obtain ⟨pa, hpamem, hpaa, hpai⟩ := hstored i a hstoreda
        have hablab : a ≠ label := by
          intro heq
          exact hpk pa hpamem (label, offs) (List.mem_cons_self _ _) (hpaa.trans heq)
        refine ⟨by rw [hb]; exact hablab, i,
          ⟨pa, List.mem_append_left _ hpamem, hpaa, hpai⟩,
          ⟨(label, offs), List.mem_append_right _ (List.mem_cons_self _ _), hb.symm, hioffs⟩⟩
      · intro s' h
        rw [hres] at h
        cases h
    | cont s₁ =>
      have hres := @procLabels_cons_cont content label offs rest s s₁ hpo
      obtain ⟨c1, c2, c3, c4⟩ := pocont s₁ hpo
      have hpm : (prev ++ [(label, offs)]) ++ rest = prev ++ (label, offs) :: rest := by
        rw [List.append_assoc, List.singleton_append]
      have hkeyscons : (label :: rest.map Prod.fst).Nodup := by simpa using hkeys
      have hkeyhead : label ∉ rest.map Prod.fst := (List.nodup_cons.mp hkeyscons).1
      have hkeystail : (rest.map Prod.fst).Nodup := (List.nodup_cons.mp hkeyscons).2
      have ihres := ih (prev ++ [(label, offs)]) s₁
        (fun p hp => hne p (List.mem_cons_of_mem _ hp))
        (fun p hp => hnodup p (List.mem_cons_of_mem _ hp))
        (fun p hp => hin p (List.mem_cons_of_mem _ hp))
        hkeystail
        (by
          intro p hp q hq
          rcases List.mem_append.mp hp with hp | hp
          · exact hpk p hp q (List.mem_cons_of_mem _ hq)
          · have hpe : p = (label, offs) := by simpa using hp
            subst hpe
            intro heq
            apply hkeyhead
            rw [show label = q.1 from heq]
            exact List.mem_map_of_mem Prod.fst hq)
        (by
          intro j L hL
          rcases c2 j L hL with hL' | ⟨hLlab, hjoffs⟩
          · obtain ⟨p, hpmem, hpL, hpj⟩ := hstored j L hL'
            exact ⟨p, List.mem_append_left _ hpmem, hpL, hpj⟩
          · exact ⟨(label, offs), List.mem_append_right _ (List.mem_cons_self _ _),
              hLlab.symm, hjoffs⟩)
        (by
          intro p hp i hi
          rcases List.mem_append.mp hp with hp | hp
          · exact c3 i (hcov p hp i hi)
          · have hpe : p = (label, offs) := by simpa using hp
            subst hpe
            exact c4 i hi)
        (by
          refine List.pairwise_append.mpr ⟨hpw, List.pairwise_singleton _ _, ?_⟩
          intro p hp q hq i hip hiq
          have hqe : q = (label, offs) := by simpa using hq
          subst hqe
          have htrue := hcov p hp i hip
          have hfalse := c1 i hiq
          rw [htrue] at hfalse
          cases hfalse)
      obtain ⟨e1, e2, e3⟩ := ihres
      refine ⟨by rw [hres]; exact e1, ?_, ?_⟩
      · intro a b line h
        rw [hres] at h
        obtain ⟨hab, j, ⟨pa, hpamem, hpa⟩, ⟨pb, hpbmem, hpb⟩⟩ := e2 a b line h
        rw [hpm] at hpamem hpbmem
        exact ⟨hab, j, ⟨pa, hpamem, hpa⟩, ⟨pb, hpbmem, hpb⟩⟩
      · intro s' h
        rw [hres] at h
        have := e3 s' h
        rwa [hpm] at this

/-! ### Error-freedom of the line detector on in-range offsets -/

theorem procOffsets_no_err (content : List String) (label : String)
    (offs : List Int) :
    ∀ s : List (Option String),
    (∀ i ∈ offs, 0 ≤ i ∧ i.toNat < content.length) →
    procOffsets content label offs s ≠ .err := by
  induction offs with
  | nil =>
    intro s _
    simp [procOffsets]
  | cons i rest ih =>
    intro s hin
    have hi0 : 0 ≤ i := (hin i (List.mem_cons_self i rest)).1
    have hilt : i.toNat < content.length := (hin i (List.mem_cons_self i rest)).2
    have hunf : procOffsets content label (i :: rest) s =
        (if truthy (sGet s i) then
          match pyGet content i, sGet s i with
          | some line, some stored => .tang stored label line
          | _, _ => .err
        else
          match dlWrite (dlGrow s i.toNat) i label with
          | none => .err
          | some s₂ => procOffsets content label rest s₂) := by
      simp only [procOffsets, dlRead_nonneg s hi0]
    rw [hunf]
    by_cases ht : truthy (sGet s i) = true
    · obtain ⟨a, ha, _⟩ := (truthy_iff _).mp ht
      rw [if_pos ht, pyGet_nonneg_lt hi0 hilt, ha]
      intro hx
      cases hx
    · have ht' : truthy (sGet s i) = false := by
        cases hb : truthy (sGet s i)
        · rfl
        · exact absurd hb ht
      rw [if_neg (by simp [ht']), dlWrite_nonneg (dlGrow s i.toNat) hi0 label]
      exact ih _ (fun j hj => hin j (List.mem_cons_of_mem i hj))

theorem procLabels_no_err (content : List String) (lv : List (String × List Int)) :
    ∀ s : List (Option String),
    (∀ p ∈ lv, ∀ i ∈ p.2, 0 ≤ i ∧ i.toNat < content.length) →
    procLabels content lv s ≠ .err := by
  induction lv with
  | nil =>
    intro s _
    simp [procLabels]
  | cons e rest ih =>
    intro s hin
    obtain ⟨label, offs⟩ := e
    cases hpo : procOffsets content label offs s with
    | err =>
      exact absurd hpo
        (procOffsets_no_err content label offs s (hin _ (List.mem_cons_self _ _)))
    | cont s₁ =>
      rw [@procLabels_cons_cont content label offs rest s s₁ hpo]
      exact ih s₁ (fun p hp => hin p (List.mem_cons_of_mem _ hp))
    | tang a b line =>
      rw [@procLabels_cons_tang content label offs rest s a b line hpo]
      intro hx
      cases hx

theorem has_tangled_lines_cons_cont {h : Hunk} {rest : List Hunk}
    {commit_hash : String} {s' : List (Option String)}
    (hc : procLabels h.content h.lines_verified [] = .cont s') :
    has_tangled_lines (h :: rest) commit_hash = has_tangled_lines rest commit_hash := by
  have hstep : has_tangled_lines (h :: rest) commit_hash =
      (match procLabels h.content h.lines_verified [] with
       | .cont _ => has_tangled_lines rest commit_hash
       | .tang a b line => .tangled a b line
       | .err => .ixError) := rfl
  rw [hstep, hc]

theorem has_tangled_lines_cons_tang {h : Hunk} {rest : List Hunk}
    {commit_hash : String} {a b line : String}
    (hc : procLabels h.content h.lines_verified [] = .tang a b line) :
    has_tangled_lines (h :: rest) commit_hash = .tangled a b line := by
  have hstep : has_tangled_lines (h :: rest) commit_hash =
      (match procLabels h.content h.lines_verified [] with
       | .cont _ => has_tangled_lines rest commit_hash
       | .tang a b line => .tangled a b line
       | .err => .ixError) := rfl
  rw [hstep, hc]

/-! ### Claim C1 -/

/-- Claim C1 (corrected).  For a hunk whose label dict has pairwise distinct
*nonempty* labels, duplicate-free per-label offset lists and in-range
offsets, the presence of two different labels sharing an offset makes
`has_tangled_lines` report a tangled line, and the reported pair consists
of two *distinct* labels that both list the reported collision offset
(the collision actually reported need not be the given one when several
exist).  The nonemptiness condition is forced: Python's truthiness test
`if line_labels[i]:` cannot see a stored empty-string label (see the
counterexample). -/
theorem has_tangled_lines_reports_collision (h : Hunk) (commit_hash : String)
    (hkeys : (h.lines_verified.map Prod.fst).Nodup)
    (hne : ∀ p ∈ h.lines_verified, p.1 ≠ "")
    (hnodup : ∀ p ∈ h.lines_verified, p.2.Nodup)
    (hin : ∀ p ∈ h.lines_verified, ∀ i ∈ p.2, 0 ≤ i ∧ i.toNat < h.content.length)
    (l1 l2 : String × List Int)
    (h1 : l1 ∈ h.lines_verified) (h2 : l2 ∈ h.lines_verified)
    (hdiff : l1.1 ≠ l2.1) (i : Int) (hi1 : i ∈ l1.2) (hi2 : i ∈ l2.2) :
    ∃ a b line, has_tangled_lines [h] commit_hash = .tangled a b line ∧ a ≠ b ∧
      ∃ j, (∃ pa ∈ h.lines_verified, pa.1 = a ∧ j ∈ pa.2) ∧
        (∃ pb ∈ h.lines_verified, pb.1 = b ∧ j ∈ pb.2) := by
  have hsget : ∀ j L, sGet ([] : List (Option String)) j = some L →
      ∃ p ∈ ([] : List (String × List Int)), p.1 = L ∧ j ∈ p.2 := by
    intro j L hL
    simp [sGet] at hL
  obtain ⟨perr, ptang, pcont⟩ := procLabels_spec h.content h.lines_verified []
    [] hne hnodup hin hkeys (by simp) hsget (by simp) (by simp)
  cases hres : procLabels h.content h.lines_verified [] with
  | err => exact absurd hres perr
  | cont s' =>
    exfalso
    have hpw := pcont s' hres
    rw [List.nil_append] at hpw
    have hsymm : Symmetric (fun p q : String × List Int => ∀ i, i ∈ p.2 → i ∉ q.2) := by
      intro p q hpq k hkq hkp
      exact hpq k hkp hkq
    have hl12 : l1 ≠ l2 := fun he => hdiff (congrArg Prod.fst he)
    exact hpw.forall hsymm h1 h2 hl12 i hi1 hi2
  | tang a b line =>
    obtain ⟨hab, j, ⟨pa, hpam, hpa⟩, ⟨pb, hpbm, hpb⟩⟩ := ptang a b line hres
    rw [List.nil_append] at hpam hpbm
    exact ⟨a, b, line, has_tangled_lines_cons_tang hres, hab, j,
      ⟨pa, hpam, hpa⟩, ⟨pb, hpbm, hpb⟩⟩

/-- Claim C1 counterexample.  The labels `""` and `"x"` are two different
labels that both list offset `0` of a one-line hunk (all dict invariants
hold), yet `has_tangled_lines` returns `False`: the stored empty label is
falsy, so the second label silently overwrites it. -/
theorem line_collision_empty_label_missed :
    ("" : String) ≠ "x" ∧
    has_tangled_lines [⟨["la"], [("", [0]), ("x", [0])]⟩] "c" = .clean := by
  constructor
  · decide
  · decide

/-- Claim C1 witness: the amended theorem at a concrete two-label hunk. -/
theorem has_tangled_lines_reports_collision_witness :
    ∃ a b line,
      has_tangled_lines [⟨["la", "lb"], [("x", [0]), ("y", [0])]⟩] "c" =
        .tangled a b line ∧ a ≠ b ∧
      ∃ j, (∃ pa ∈ [("x", [(0 : Int)]), ("y", [0])], pa.1 = a ∧ j ∈ pa.2) ∧
        (∃ pb ∈ [("x", [(0 : Int)]), ("y", [0])], pb.1 = b ∧ j ∈ pb.2) :=
  has_tangled_lines_reports_collision ⟨["la", "lb"], [("x", [0]), ("y", [0])]⟩ "c"
    (by decide) (by decide) (by decide) (by decide)
    ("x", [0]) ("y", [0]) (by decide) (by decide) (by decide) 0 (by decide) (by decide)

/-! ### Claim C3 -/

/-- Claim C3 (corrected).  When every verified-line offset of every hunk is
a valid index into that hunk's content, `has_tangled_lines` always
terminates normally with a boolean (no uncaught `IndexError`).  The
original claim's unconditional tolerance of malformed offsets is refuted
by the counterexample: a collision *detected at* an out-of-range offset
aborts the function inside the diagnostic content lookup. -/
theorem has_tangled_lines_total_on_valid_offsets (hunks : List Hunk)
    (commit_hash : String)
    (hin : ∀ h ∈ hunks, ∀ p ∈ h.lines_verified, ∀ i ∈ p.2,
      0 ≤ i ∧ i.toNat < h.content.length) :
    has_tangled_lines hunks commit_hash ≠ .ixError := by
  induction hunks with
  | nil => simp [has_tangled_lines]
  | cons h rest ih =>
    have hnoerr := procLabels_no_err h.content h.lines_verified []
      (hin h (List.mem_cons_self _ _))
    cases hres : procLabels h.content h.lines_verified [] with
    | err => exact absurd hres hnoerr
    | cont s' =>
      rw [has_tangled_lines_cons_cont hres]
      exact ih (fun h' hh' => hin h' (List.mem_cons_of_mem _ hh'))
    | tang a b line =>
      rw [has_tangled_lines_cons_tang hres]
      intro hx
      cases hx

/-- Claim C3 counterexample.  Both labels list offset `5` of a one-line
hunk: the collision is detected there, and the diagnostic lookup
`hunk_content_by_line[5]` raises an uncaught `IndexError` instead of
returning `True` — detection does not merely lose its report. -/
theorem oob_collision_aborts :
    has_tangled_lines [⟨["la"], [("x", [5]), ("y", [5])]⟩] "c" = .ixError := by
  decide

/-- Claim C3 witness: the amended theorem at a concrete in-range hunk. -/
theorem has_tangled_lines_total_on_valid_offsets_witness :
    has_tangled_lines [⟨["la", "lb"], [("x", [0, 1])]⟩] "c" ≠ .ixError :=
  has_tangled_lines_total_on_valid_offsets
    [⟨["la", "lb"], [("x", [0, 1])]⟩] "c" (by decide)

/-! ### Behaviour of the hunk-granularity detector -/

theorem hunkSeen_spec (CODE FIX NOFIX : List String)
    (hFC : ∀ l ∈ FIX, l ∈ CODE) (hNC : ∀ l ∈ NOFIX, l ∈ CODE)
    (hdisj : ∀ l ∈ FIX, l ∉ NOFIX) (lv : List (String × List Int)) :
    ∀ seen : List String,
    (seen = [] ∨ seen = ["fix"] ∨ seen = ["nofix"]) →
    (hunkSeen CODE FIX NOFIX lv seen = true ↔
      (("fix" ∈ seen ∨ ∃ p ∈ lv, p.1 ∈ FIX) ∧
       ("nofix" ∈ seen ∨ ∃ p ∈ lv, p.1 ∈ NOFIX))) := by
  induction lv with
  | nil =>
    intro seen hseen
    constructor
    · intro hx
      simp [hunkSeen] at hx
    · rintro ⟨h1, h2⟩
      rcases hseen with rfl | rfl | rfl
      · rcases h1 with h1 | ⟨p, hp, -⟩
        · simp at h1
        · simp at hp
      · rcases h2 with h2 | ⟨p, hp, -⟩
        · simp at h2
        · simp at hp
      · rcases h1 with h1 | ⟨p, hp, -⟩
        · simp at h1
        · simp at hp
  | cons e rest ih =>
    intro seen hseen
    obtain ⟨label, offs⟩ := e
    have hstep : hunkSeen CODE FIX NOFIX ((label, offs) :: rest) seen =
        (if label ∉ CODE then hunkSeen CODE FIX NOFIX rest seen
         else if (addCategory FIX NOFIX label seen).length == 2 then true
         else hunkSeen CODE FIX NOFIX rest (addCategory FIX NOFIX label seen)) := rfl
    by_cases hc : label ∈ CODE
    · rw [hstep, if_neg (by simpa using hc)]
      by_cases hf : label ∈ FIX
      · have hln : label ∉ NOFIX := hdisj label hf
        rcases hseen with rfl | rfl | rfl
        · have hadd : addCategory FIX NOFIX label [] = ["fix"] := by
            simp [addCategory, insertNew, hf]
          rw [hadd]
          simp only [List.length_singleton]
          rw [if_neg (by decide)]
          have hIH := ih ["fix"] (Or.inr (Or.inl rfl))
          rw [hIH]
          constructor
          · rintro ⟨-, h2⟩
            refine ⟨Or.inr ⟨(label, offs), List.mem_cons_self _ _, hf⟩, ?_⟩
            rcases h2 with h2 | ⟨p, hp, hpn⟩
            · simp at h2
            · exact Or.inr ⟨p, List.mem_cons_of_mem _ hp, hpn⟩
          · rintro ⟨-, h2⟩
            refine ⟨Or.inl (List.mem_singleton_self _), ?_⟩
            rcases h2 with h2 | ⟨p, hp, hpn⟩
            · simp at h2
            · rcases List.mem_cons.mp hp with rfl | hp'
              · exact absurd hpn hln
              · exact Or.inr ⟨p, hp', hpn⟩
        · have hadd : addCategory FIX NOFIX label ["fix"] = ["fix"] := by
            simp [addCategory, insertNew, hf]
          rw [hadd]
          simp only [List.length_singleton]
          rw [if_neg (by decide)]
          have hIH := ih ["fix"] (Or.inr (Or.inl rfl))
          rw [hIH]
          constructor
          · rintro ⟨-, h2⟩
            refine ⟨Or.inl (List.mem_singleton_self _), ?_⟩
            rcases h2 with h2 | ⟨p, hp, hpn⟩
            · simp at h2
            · exact Or.inr ⟨p, List.mem_cons_of_mem _ hp, hpn⟩
          · rintro ⟨-, h2⟩
            refine ⟨Or.inl (List.mem_singleton_self _), ?_⟩
            rcases h2 with h2 | ⟨p, hp, hpn⟩
            · simp at h2
            · rcases List.mem_cons.mp hp with rfl | hp'
              · exact absurd hpn hln
              · exact Or.inr ⟨p, hp', hpn⟩
        · have hadd : addCategory FIX NOFIX label ["nofix"] = ["fix", "nofix"] := by
            simp [addCategory, insertNew, hf]
          rw [hadd]
          rw [if_pos (by decide)]
          constructor
          · intro _
            exact ⟨Or.inr ⟨(label, offs), List.mem_cons_self _ _, hf⟩,
              Or.inl (List.mem_singleton_self _)⟩
          · intro _
            rfl
      · by_cases hn : label ∈ NOFIX
        · rcases hseen with rfl | rfl | rfl
          · have hadd : addCategory FIX NOFIX label [] = ["nofix"] := by
              simp [addCategory, insertNew, hf, hn]
            rw [hadd]
            simp only [List.length_singleton]
            rw [if_neg (by decide)]
            have hIH := ih ["nofix"] (Or.inr (Or.inr rfl))
            rw [hIH]
            constructor
            · rintro ⟨h1, -⟩
              refine ⟨?_, Or.inr ⟨(label, offs), List.mem_cons_self _ _, hn⟩⟩
              rcases h1 with h1 | ⟨p, hp, hpf⟩
              · simp at h1
              · exact Or.inr ⟨p, List.mem_cons_of_mem _ hp, hpf⟩
            · rintro ⟨h1, -⟩
              refine ⟨?_, Or.inl (List.mem_singleton_self _)⟩
              rcases h1 with h1 | ⟨p, hp, hpf⟩
              · simp at h1
              · rcases List.mem_cons.mp hp with rfl | hp'
                · exact absurd hn (hdisj _ hpf)
                · exact Or.inr ⟨p, hp', hpf⟩
          · have hadd : addCategory FIX NOFIX label ["fix"] = ["nofix", "fix"] := by
              simp [addCategory, insertNew, hf, hn]
            rw [hadd]
            rw [if_pos (by decide)]
            constructor
            · intro _
              exact ⟨Or.inl (List.mem_singleton_self _),
                Or.inr ⟨(label, offs), List.mem_cons_self _ _, hn⟩⟩
            · intro _
              rfl
          · have hadd : addCategory FIX NOFIX label ["nofix"] = ["nofix"] := by
              simp [addCategory, insertNew, hf, hn]
            rw [hadd]
            simp only [List.length_singleton]
            rw [if_neg (by decide)]
            have hIH := ih ["nofix"] (Or.inr (Or.inr rfl))
            rw [hIH]
            constructor
            · rintro ⟨h1, -⟩
              refine ⟨?_, Or.inl (List.mem_singleton_self _)⟩
              rcases h1 with h1 | ⟨p, hp, hpf⟩
              · simp at h1
              · exact Or.inr ⟨p, List.mem_cons_of_mem _ hp, hpf⟩
            · rintro ⟨h1, -⟩
              refine ⟨?_, Or.inl (List.mem_singleton_self _)⟩
              rcases h1 with h1 | ⟨p, hp, hpf⟩
              · simp at h1
              · rcases List.mem_cons.mp hp with rfl | hp'
                · exact absurd hn (hdisj _ hpf)
                · exact Or.inr ⟨p, hp', hpf⟩
        · have hadd : addCategory FIX NOFIX label seen = seen := by
            simp [addCategory, insertNew, hf, hn]
          rw [hadd]
          have hlen : (seen.length == 2) = false := by
            rcases hseen with rfl | rfl | rfl <;> decide
          rw [hlen, if_neg (by decide)]
          have hIH := ih seen hseen
          rw [hIH]
          have hexf : (∃ p ∈ (label, offs) :: rest, p.1 ∈ FIX) ↔
              (∃ p ∈ rest, p.1 ∈ FIX) := by
            constructor
            · rintro ⟨p, hp, hpf⟩
              rcases List.mem_cons.mp hp with rfl | hp'
              · exact absurd hpf hf
              · exact ⟨p, hp', hpf⟩
            · rintro ⟨p, hp, hpf⟩
              exact ⟨p, List.mem_cons_of_mem _ hp, hpf⟩
          have hexn : (∃ p ∈ (label, offs) :: rest, p.1 ∈ NOFIX) ↔
              (∃ p ∈ rest, p.1 ∈ NOFIX) := by
            constructor
            · rintro ⟨p, hp, hpn⟩
              rcases List.mem_cons.mp hp with rfl | hp'
              · exact absurd hpn hn
              · exact ⟨p, hp', hpn⟩
            · rintro ⟨p, hp, hpn⟩
              exact ⟨p, List.mem_cons_of_mem _ hp, hpn⟩
          rw [hexf, hexn]
    · rw [hstep, if_pos (by simpa using hc)]
      have hIH := ih seen hseen
      rw [hIH]
      have hexf : (∃ p ∈ (label, offs) :: rest, p.1 ∈ FIX) ↔
          (∃ p ∈ rest, p.1 ∈ FIX) := by
        constructor
        · rintro ⟨p, hp, hpf⟩
          rcases List.mem_cons.mp hp with rfl | hp'
          · exact absurd (hFC _ hpf) hc
          · exact ⟨p, hp', hpf⟩
        · rintro ⟨p, hp, hpf⟩
          exact ⟨p, List.mem_cons_of_mem _ hp, hpf⟩
      have hexn : (∃ p ∈ (label, offs) :: rest, p.1 ∈ NOFIX) ↔
          (∃ p ∈ rest, p.1 ∈ NOFIX) := by
        constructor
        · rintro ⟨p, hp, hpn⟩
          rcases List.mem_cons.mp hp with rfl | hp'
          · exact absurd (hNC _ hpn) hc
          · exact ⟨p, hp', hpn⟩
        · rintro ⟨p, hp, hpn⟩
          exact ⟨p, List.mem_cons_of_mem _ hp, hpn⟩
      rw [hexf, hexn]

theorem has_tangled_hunks_singleton (CODE FIX NOFIX : List String)
    (h : Hunk) (commit_hash : String) :
    has_tangled_hunks CODE FIX NOFIX [h] commit_hash =
      hunkSeen CODE FIX NOFIX h.lines_verified [] := by
  have hstep : has_tangled_hunks CODE FIX NOFIX [h] commit_hash =
      (if hunkSeen CODE FIX NOFIX h.lines_verified [] then true
       else has_tangled_hunks CODE FIX NOFIX [] commit_hash) := rfl
  rw [hstep]
  cases hx : hunkSeen CODE FIX NOFIX h.lines_verified [] <;>
    simp [has_tangled_hunks]

/-! ### Claim C2 -/

/-- Claim C2 (confirmed).  Under the spec's invariants on the label sets
(`CODE_FIX ⊆ CODE`, `CODE_NO_FIX ⊆ CODE`, `CODE_FIX ∩ CODE_NO_FIX = ∅`),
`has_tangled_hunks` on a hunk is true iff the hunk's labels include at
least one FIX-category and at least one NO_FIX-category label, regardless
of offsets; in particular it is false when all code-category labels fall
in only one set, even in the presence of OTHER labels. -/
theorem has_tangled_hunks_iff_fix_and_nofix (CODE FIX NOFIX : List String)
    (hFC : ∀ l ∈ FIX, l ∈ CODE) (hNC : ∀ l ∈ NOFIX, l ∈ CODE)
    (hdisj : ∀ l ∈ FIX, l ∉ NOFIX) (h : Hunk) (commit_hash : String) :
    has_tangled_hunks CODE FIX NOFIX [h] commit_hash = true ↔
      ((∃ p ∈ h.lines_verified, p.1 ∈ FIX) ∧
       (∃ p ∈ h.lines_verified, p.1 ∈ NOFIX)) := by
  rw [has_tangled_hunks_singleton]
  rw [hunkSeen_spec CODE FIX NOFIX hFC hNC hdisj h.lines_verified [] (Or.inl rfl)]
  simp

/-- Claim C2 witness: with `CODE = {"f","n","o"}`, `FIX = {"f"}`,
`NOFIX = {"n"}`, a hunk holding a FIX label, an OTHER code label and a
non-code label on disjoint offsets is tangled at hunk granularity exactly
when a NOFIX label is present — shown in both directions on concrete
hunks. -/
theorem has_tangled_hunks_iff_fix_and_nofix_witness :
    has_tangled_hunks ["f", "n", "o"] ["f"] ["n"]
      [⟨[], [("f", [0]), ("n", [1]), ("o", [2]), ("x", [3])]⟩] "c" = true ∧
    has_tangled_hunks ["f", "n", "o"] ["f"] ["n"]
      [⟨[], [("f", [0]), ("o", [1]), ("x", [2])]⟩] "c" = false := by
  constructor
  · exact (has_tangled_hunks_iff_fix_and_nofix ["f", "n", "o"] ["f"] ["n"]
      (by decide) (by decide) (by decide)
      ⟨[], [("f", [0]), ("n", [1]), ("o", [2]), ("x", [3])]⟩ "c").mpr
      ⟨⟨("f", [0]), by decide, by decide⟩, ⟨("n", [1]), by decide, by decide⟩⟩
  · have hiff := has_tangled_hunks_iff_fix_and_nofix ["f", "n", "o"] ["f"] ["n"]
      (by decide) (by decide) (by decide)
      ⟨[], [("f", [0]), ("o", [1]), ("x", [2])]⟩ "c"
    cases hx : has_tangled_hunks ["f", "n", "o"] ["f"] ["n"]
      [⟨[], [("f", [0]), ("o", [1]), ("x", [2])]⟩] "c"
    · rfl
    · exfalso
      obtain ⟨-, ⟨p, hp, hpn⟩⟩ := hiff.mp hx
      simp only [List.mem_cons, List.not_mem_nil, or_false] at hp
      rcases hp with rfl | rfl | rfl <;> simp at hpn

/-! ### Claim C9 -/

/-- Claim C9 (confirmed).  The `seen_labels` accumulator is reset for each
hunk: when no single hunk carries both a FIX-category and a NO_FIX-category
label, `has_tangled_hunks` returns false for the whole list, even when one
hunk has a FIX label and a different hunk has a NO_FIX label. -/
theorem has_tangled_hunks_resets_between_hunks (CODE FIX NOFIX : List String)
    (hFC : ∀ l ∈ FIX, l ∈ CODE) (hNC : ∀ l ∈ NOFIX, l ∈ CODE)
    (hdisj : ∀ l ∈ FIX, l ∉ NOFIX) (hunks : List Hunk) (commit_hash : String)
    (hone : ∀ h ∈ hunks,
      ¬((∃ p ∈ h.lines_verified, p.1 ∈ FIX) ∧
        (∃ p ∈ h.lines_verified, p.1 ∈ NOFIX))) :
    has_tangled_hunks CODE FIX NOFIX hunks commit_hash = false := by
  induction hunks with
  | nil => rfl
  | cons h rest ih =>
    have hstep : has_tangled_hunks CODE FIX NOFIX (h :: rest) commit_hash =
        (if hunkSeen CODE FIX NOFIX h.lines_verified [] then true
         else has_tangled_hunks CODE FIX NOFIX rest commit_hash) := rfl
    have hfalse : hunkSeen CODE FIX NOFIX h.lines_verified [] = false := by
      cases hx : hunkSeen CODE FIX NOFIX h.lines_verified []
      · rfl
      · exfalso
        have := (hunkSeen_spec CODE FIX NOFIX hFC hNC hdisj h.lines_verified
          [] (Or.inl rfl)).mp hx
        apply hone h (List.mem_cons_self _ _)
        constructor
        · rcases this.1 with h1 | h1
          · simp at h1
          · exact h1
        · rcases this.2 with h2 | h2
          · simp at h2
          · exact h2
    rw [hstep, hfalse]
    simp only [Bool.false_eq_true, if_false]
    exact ih (fun h' hh' => hone h' (List.mem_cons_of_mem _ hh'))

/-- Claim C9 witness: one hunk with only a FIX-category label followed by a
different hunk with only a NO_FIX-category label is not hunk-tangled. -/
theorem has_tangled_hunks_resets_between_hunks_witness :
    has_tangled_hunks ["f", "n"] ["f"] ["n"]
      [⟨[], [("f", [0])]⟩, ⟨[], [("n", [0])]⟩] "c" = false :=
  has_tangled_hunks_resets_between_hunks ["f", "n"] ["f"] ["n"]
    (by decide) (by decide) (by decide)
    [⟨[], [("f", [0])]⟩, ⟨[], [("n", [0])]⟩] "c" (by decide)

/-! ### The commit-level scan -/

theorem commit_scan_cons_skip {db : Nat → Option File} {fa : FileAction}
    {file : File} {commit_hash : String}
    {tangle_func : List Hunk → String → Except String Bool}
    {rest : List FileAction}
    (h : get_changed_file db fa = some file)
    (hskip : (!is_java_file file || is_test_file file) = true) :
    commit_scan db commit_hash tangle_func (fa :: rest) =
      commit_scan db commit_hash tangle_func rest := by
  have hstep : commit_scan db commit_hash tangle_func (fa :: rest) =
      (match get_changed_file db fa with
       | none => .error "DoesNotExist"
       | some file =>
         if !is_java_file file || is_test_file file then
           commit_scan db commit_hash tangle_func rest
         else
           Except.map some (tangle_func fa.hunks commit_hash)) := rfl
  rw [hstep, h]
  show (if !is_java_file file || is_test_file file then
      commit_scan db commit_hash tangle_func rest
    else Except.map some (tangle_func fa.hunks commit_hash)) = _
  rw [if_pos hskip]

theorem commit_scan_cons_eval {db : Nat → Option File} {fa : FileAction}
    {file : File} {commit_hash : String}
    {tangle_func : List Hunk → String → Except String Bool}
    {rest : List FileAction}
    (h : get_changed_file db fa = some file)
    (hskip : (!is_java_file file || is_test_file file) = false) :
    commit_scan db commit_hash tangle_func (fa :: rest) =
      Except.map some (tangle_func fa.hunks commit_hash) := by
  have hstep : commit_scan db commit_hash tangle_func (fa :: rest) =
      (match get_changed_file db fa with
       | none => .error "DoesNotExist"
       | some file =>
         if !is_java_file file || is_test_file file then
           commit_scan db commit_hash tangle_func rest
         else
           Except.map some (tangle_func fa.hunks commit_hash)) := rfl
  rw [hstep, h]
  show (if !is_java_file file || is_test_file file then
      commit_scan db commit_hash tangle_func rest
    else Except.map some (tangle_func fa.hunks commit_hash)) = _
  rw [if_neg (by simp [hskip])]

theorem commit_scan_append_skips (db : Nat → Option File)
    (commit_hash : String)
    (tangle_func : List Hunk → String → Except String Bool)
    (pre : List FileAction) :
    ∀ rest : List FileAction,
    (∀ fa' ∈ pre, ∃ file, get_changed_file db fa' = some file ∧
      (!is_java_file file || is_test_file file) = true) →
    commit_scan db commit_hash tangle_func (pre ++ rest) =
      commit_scan db commit_hash tangle_func rest := by
  induction pre with
  | nil =>
    intro rest _
    rw [List.nil_append]
  | cons fa' pre' ih =>
    intro rest hpre
    obtain ⟨file, hfile, hskip⟩ := hpre fa' (List.mem_cons_self _ _)
    rw [List.cons_append, commit_scan_cons_skip hfile hskip]
    exact ih rest (fun x hx => hpre x (List.mem_cons_of_mem _ hx))

/-! ### Claim C4 -/

/-- Claim C4 (confirmed).  A commit with an absent label dict, or without a
true `validated_bugfix` entry, or with a parent count other than one, is
reported not tangled (`False`) by `is_commit_tangled` for every tangle
function, and likewise by `is_tangled` of the line-granularity script. -/
theorem commit_gate_returns_false (db : Nat → Option File) (c : Commit)
    (fas : List FileAction)
    (tangle_func : List Hunk → String → Except String Bool)
    (hgate : c.labels = none ∨
      (∀ ls, c.labels = some ls → ls.lookup "validated_bugfix" ≠ some true) ∨
      c.parents.length ≠ 1) :
    is_commit_tangled db c fas tangle_func = .ok (some false) ∧
    is_tangled db c fas = .ok (some false) := by
  have hval : validated_single_parent c = false := by
    unfold validated_single_parent
    rcases hgate with hl | hl | hl
    · simp [hl]
    · cases hcl : c.labels with
      | none => simp
      | some ls =>
        cases hlk : ls.lookup "validated_bugfix" with
        | none => simp [hlk]
        | some b =>
          cases b
          · simp [hlk]
          · exact absurd hlk (hl ls hcl)
    · have hne : (c.parents.length == 1) = false := by
        simp [hl]
      rw [hne, Bool.and_false]
  constructor
  · unfold is_commit_tangled
    rw [if_neg (by simp [hval])]
  · unfold is_tangled
    rw [if_neg (by simp [hval])]

/-- Claim C4 witness: a commit whose label dict is absent. -/
theorem commit_gate_returns_false_witness :
    is_commit_tangled (fun _ => none) ⟨"h0", none, [1]⟩ []
      (fun _ _ => .ok true) = .ok (some false) ∧
    is_tangled (fun _ => none) ⟨"h0", none, [1]⟩ [] = .ok (some false) :=
  commit_gate_returns_false (fun _ => none) ⟨"h0", none, [1]⟩ []
    (fun _ _ => .ok true) (Or.inl rfl)

/-! ### Claim C5 -/

/-- Claim C5 (confirmed).  For an eligible commit, `is_commit_tangled`
evaluates the tangle function on exactly the first file action whose
resolved file passes the in-scope filter and returns its result
immediately, whatever file actions follow. -/
theorem is_commit_tangled_first_match (db : Nat → Option File) (c : Commit)
    (tangle_func : List Hunk → String → Except String Bool)
    (pre post : List FileAction) (fa : FileAction) (f : File)
    (helig : validated_single_parent c = true)
    (hpre : ∀ fa' ∈ pre, ∃ file, get_changed_file db fa' = some file ∧
      (!is_java_file file || is_test_file file) = true)
    (hfa : get_changed_file db fa = some f)
    (hjava : is_java_file f = true) (htest : is_test_file f = false) :
    is_commit_tangled db c (pre ++ fa :: post) tangle_func =
      Except.map some (tangle_func fa.hunks c.revision_hash) := by
  unfold is_commit_tangled
  rw [if_pos helig,
    commit_scan_append_skips db c.revision_hash tangle_func pre (fa :: post) hpre,
    commit_scan_cons_eval hfa (by simp [hjava, htest])]

/-- Claim C5 witness: an eligible commit whose first file action resolves
to a Java test file and whose second resolves to an in-scope source file
with one hunk-tangled hunk is reported tangled. -/
theorem is_commit_tangled_first_match_witness :
    is_commit_tangled
      (fun n => if n == 1 then some ⟨"a/FooTest.java"⟩
        else if n == 2 then some ⟨"a/Foo.java"⟩ else none)
      ⟨"h0", some [("validated_bugfix", true)], [5]⟩
      ([⟨some 1, none, "M", []⟩] ++
        ⟨some 2, none, "M", [⟨[], [("f", [0]), ("n", [1])]⟩]⟩ :: [])
      (fun hs h => .ok (has_tangled_hunks ["f", "n"] ["f"] ["n"] hs h)) =
      .ok (some true) := by
  rw [is_commit_tangled_first_match
    (fun n => if n == 1 then some ⟨"a/FooTest.java"⟩
      else if n == 2 then some ⟨"a/Foo.java"⟩ else none)
    ⟨"h0", some [("validated_bugfix", true)], [5]⟩
    (fun hs h => .ok (has_tangled_hunks ["f", "n"] ["f"] ["n"] hs h))
    [⟨some 1, none, "M", []⟩] []
    ⟨some 2, none, "M", [⟨[], [("f", [0]), ("n", [1])]⟩]⟩
    ⟨"a/Foo.java"⟩
    (by decide)
    (by
      intro fa' hfa'
      have hfa1 : fa' = ⟨some 1, none, "M", []⟩ := by simpa using hfa'
      subst hfa1
      exact ⟨⟨"a/FooTest.java"⟩, by decide, by decide⟩)
    (by decide) (by decide) (by decide)]
  rfl

/-! ### Claim C6 -/

/-- Claim C6 (confirmed).  `get_changed_file` prefers the new file
(`file_id`) whenever it is present and falls back to the old file
(`old_file_id`) only otherwise; consequently, for a renamed file action
(mode `"R"`) with old file `fA` and new file `fB`, the file resolved for
filtering and reporting is `fB` — in `get_changed_file` and also in the
inline resolution of `is_tangled`. -/
theorem get_changed_file_prefers_new_file (db : Nat → Option File) :
    (∀ fa : FileAction, ∀ fid, fa.file_id = some fid →
      get_changed_file db fa = db fid) ∧
    (∀ fa : FileAction, fa.file_id = none →
      get_changed_file db fa = fa.old_file_id.bind db) ∧
    (∀ (fa : FileAction) (fid oid : Nat) (fA fB : File),
      fa.mode = "R" → fa.file_id = some fid → fa.old_file_id = some oid →
      db fid = some fB → db oid = some fA →
      get_changed_file db fa = some fB ∧ is_tangled_resolve db fa = some fB) := by
  refine ⟨?_, ?_, ?_⟩
  · intro fa fid hf
    unfold get_changed_file
    rw [hf]
  · intro fa hf
    unfold get_changed_file
    rw [hf]
  · intro fa fid oid fA fB hmode hf ho hdbf hdba
    constructor
    · unfold get_changed_file
      rw [hf]
      show db fid = some fB
      exact hdbf
    · unfold is_tangled_resolve
      rw [ho]
      show (match db oid with
            | none => none
            | some f => if fa.mode = "R" then fa.file_id.bind db else some f) =
          some fB
      rw [hdba]
      show (if fa.mode = "R" then fa.file_id.bind db else some fA) = some fB
      rw [if_pos hmode, hf]
      exact hdbf

/-- Claim C6 witness: a rename from `A.java` (id 1) to `B.java` (id 2) is
resolved to `B.java` by both scripts' resolutions. -/
theorem get_changed_file_prefers_new_file_witness :
    get_changed_file
      (fun n => if n == 1 then some ⟨"A.java"⟩
        else if n == 2 then some ⟨"B.java"⟩ else none)
      ⟨some 2, some 1, "R", []⟩ = some ⟨"B.java"⟩ ∧
    is_tangled_resolve
      (fun n => if n == 1 then some ⟨"A.java"⟩
        else if n == 2 then some ⟨"B.java"⟩ else none)
      ⟨some 2, some 1, "R", []⟩ = some ⟨"B.java"⟩ :=
  (get_changed_file_prefers_new_file
    (fun n => if n == 1 then some ⟨"A.java"⟩
      else if n == 2 then some ⟨"B.java"⟩ else none)).2.2
    ⟨some 2, some 1, "R", []⟩ 2 1 ⟨"A.java"⟩ ⟨"B.java"⟩
    rfl rfl rfl (by decide) (by decide)

/-! ### Claim C7 -/

/-- Claim C7 (confirmed).  For an eligible commit none of whose file
actions resolves to an in-scope file, `is_commit_tangled` falls off the
loop end and yields Python's implicit `None` (`ok none`), and the commit
enumeration treats that falsy value as "not tangled": prepending such a
commit to the enumeration leaves the output list unchanged. -/
theorem no_inscope_file_means_not_tangled (db : Nat → Option File)
    (c : Commit) (fas : List FileAction)
    (tangle_func : List Hunk → String → Except String Bool)
    (pname : String) (rest : List (String × Commit × List FileAction))
    (helig : validated_single_parent c = true)
    (hnone : ∀ fa ∈ fas, ∃ file, get_changed_file db fa = some file ∧
      (!is_java_file file || is_test_file file) = true) :
    is_commit_tangled db c fas tangle_func = .ok none ∧
    find_tangled_commits_loop db tangle_func ((pname, c, fas) :: rest) =
      find_tangled_commits_loop db tangle_func rest := by
  have h1 : is_commit_tangled db c fas tangle_func = .ok none := by
    unfold is_commit_tangled
    rw [if_pos helig]
    have hskip := commit_scan_append_skips db c.revision_hash tangle_func fas [] hnone
    rw [List.append_nil] at hskip
    rw [hskip]
    rfl
  refine ⟨h1, ?_⟩
  have hstep : find_tangled_commits_loop db tangle_func ((pname, c, fas) :: rest) =
      (match is_commit_tangled db c fas tangle_func with
       | .error e => .error e
       | .ok r =>
         match find_tangled_commits_loop db tangle_func rest with
         | .error e => .error e
         | .ok tl => .ok (if r.getD false then (pname, c.revision_hash) :: tl else tl)) := rfl
  rw [hstep, h1]
  show (match find_tangled_commits_loop db tangle_func rest with
        | .error e => .error e
        | .ok tl =>
          .ok (if (none : Option Bool).getD false then (pname, c.revision_hash) :: tl
            else tl)) =
      find_tangled_commits_loop db tangle_func rest
  cases hl : find_tangled_commits_loop db tangle_func rest with
  | error e => rfl
  | ok tl => rfl

/-- Claim C7 witness: an eligible commit whose only file action resolves to
a Java test file yields the implicit `None` and is not emitted. -/
theorem no_inscope_file_means_not_tangled_witness :
    is_commit_tangled (fun _ => some ⟨"a/FooTest.java"⟩)
      ⟨"h0", some [("validated_bugfix", true)], [5]⟩
      [⟨some 1, none, "M", []⟩] (fun _ _ => .ok true) = .ok none ∧
    find_tangled_commits_loop (fun _ => some ⟨"a/FooTest.java"⟩)
      (fun _ _ => .ok true)
      [("p", ⟨"h0", some [("validated_bugfix", true)], [5]⟩,
        [⟨some 1, none, "M", []⟩])] =
      find_tangled_commits_loop (fun _ => some ⟨"a/FooTest.java"⟩)
        (fun _ _ => .ok true) [] :=
  no_inscope_file_means_not_tangled (fun _ => some ⟨"a/FooTest.java"⟩)
    ⟨"h0", some [("validated_bugfix", true)], [5]⟩
    [⟨some 1, none, "M", []⟩] (fun _ _ => .ok true) "p" []
    (by decide)
    (by
      intro fa hfa
      have hfa1 : fa = ⟨some 1, none, "M", []⟩ := by simpa using hfa
      subst hfa1
      exact ⟨⟨"a/FooTest.java"⟩, by decide, by decide⟩)

/-! ### Claim C8 -/

/-- Claim C8 (confirmed).  For every granularity argument other than
`"hunk"` and `"line"`, `find_tangled_commits` raises the `ValueError`
before any dataset access: the result is the error and the trace of
dataset events is empty — no `connect_to_db` call and no project, commit
or hunk read. -/
theorem bad_granularity_fails_before_db (CODE FIX NOFIX : List String)
    (tangle_granularity : String) (db : Nat → Option File)
    (entries : List (String × Commit × List FileAction))
    (h1 : tangle_granularity ≠ "hunk") (h2 : tangle_granularity ≠ "line") :
    find_tangled_commits CODE FIX NOFIX tangle_granularity db entries =
      (.error ("ValueError: Unknown tangle granularity: " ++ tangle_granularity),
        []) := by
  unfold find_tangled_commits
  rw [if_neg h1, if_neg h2]

/-- Claim C8 witness: the granularity `"commit"` is rejected with an empty
dataset-access trace. -/
theorem bad_granularity_fails_before_db_witness :
    find_tangled_commits ["f"] ["f"] [] "commit" (fun _ => none) [] =
      (.error ("ValueError: Unknown tangle granularity: " ++ "commit"), []) :=
  bad_granularity_fails_before_db ["f"] ["f"] [] "commit" (fun _ => none) []
    (by decide) (by decide)

/-! ### Substring lemmas for the two file filters -/

theorem containsSub_append_left (q l₁ l₂ : List Char)
    (h : containsSub q l₂ = true) : containsSub q (l₁ ++ l₂) = true := by
  induction l₁ with
  | nil => simpa using h
  | cons a l₁' ih =>
    rw [List.cons_append]
    show (q.isPrefixOf (a :: (l₁' ++ l₂)) || containsSub q (l₁' ++ l₂)) = true
    rw [ih, Bool.or_true]

theorem containsSub_self_append (q t : List Char) :
    containsSub q (q ++ t) = true := by
  cases q with
  | nil =>
    cases t with
    | nil => rfl
    | cons c t' => rfl
  | cons c q' =>
    rw [List.cons_append]
    show ((c :: q').isPrefixOf (c :: (q' ++ t)) || containsSub (c :: q') (q' ++ t)) = true
    have hpre : (c :: q').isPrefixOf (c :: (q' ++ t)) = true := by
      rw [← List.cons_append]
      exact List.isPrefixOf_iff_prefix.mpr (List.prefix_append _ _)
    rw [hpre, Bool.true_or]

theorem containsSub_pattern_dropRight (q r : List Char) :
    ∀ l : List Char, containsSub (q ++ r) l = true → containsSub q l = true := by
  intro l
  induction l with
  | nil =>
    intro h
    have hqr : q ++ r = [] := List.isEmpty_iff.mp h
    have hq : q = [] := (List.append_eq_nil.mp hqr).1
    subst hq
    rfl
  | cons c t ih =>
    intro h
    have h' : ((q ++ r).isPrefixOf (c :: t) || containsSub (q ++ r) t) = true := h
    rcases Bool.or_eq_true_iff.mp h' with hp | hr
    · have hqt : q <+: c :: t :=
        (List.prefix_append q r).trans (List.isPrefixOf_iff_prefix.mp hp)
      show (q.isPrefixOf (c :: t) || containsSub q t) = true
      rw [List.isPrefixOf_iff_prefix.mpr hqt, Bool.true_or]
    · show (q.isPrefixOf (c :: t) || containsSub q t) = true
      rw [ih hr, Bool.or_true]

theorem containsSub_pattern_dropLeft (p q : List Char) :
    ∀ l : List Char, containsSub (p ++ q) l = true → containsSub q l = true := by
  intro l
  induction l with
  | nil =>
    intro h
    have hpq : p ++ q = [] := List.isEmpty_iff.mp h
    have hq : q = [] := (List.append_eq_nil.mp hpq).2
    subst hq
    rfl
  | cons c t ih =>
    intro h
    have h' : ((p ++ q).isPrefixOf (c :: t) || containsSub (p ++ q) t) = true := h
    rcases Bool.or_eq_true_iff.mp h' with hp | hr
    · obtain ⟨t', ht'⟩ := List.isPrefixOf_iff_prefix.mp hp
      rw [← ht', List.append_assoc]
      exact containsSub_append_left q p (q ++ t') (containsSub_self_append q t')
    · show (q.isPrefixOf (c :: t) || containsSub q t) = true
      rw [ih hr, Bool.or_true]

/-! ### Claim C10 -/

/-- Claim C10 (corrected).  The two scripts' in-scope filters are *not*
equivalent (see the counterexample), but they agree on every path that
neither contains the substring `"test"` nor ends with `"Tests.java"`:
there the commits-script filter `is_java_file ∧ ¬is_test_file` and the
lines-script filter `¬lines_skip_file` both reduce to
"ends with `.java` and not with `Test.java`". -/
theorem filters_agree_outside_divergent_cases (file : File)
    (hnt : strContains file.path "test" = false)
    (hnts : strEndsWith file.path "Tests.java" = false) :
    (is_java_file file && !is_test_file file) = !lines_skip_file file := by
  have h1 : strContains file.path "test/" = false := by
    cases hx : strContains file.path "test/"
    · rfl
    · exfalso
      have hc : containsSub (("test" : String).data ++ ("/" : String).data)
          file.path.data = true := hx
      have hc' := containsSub_pattern_dropRight ("test" : String).data
        ("/" : String).data file.path.data hc
      have hc'' : strContains file.path "test" = true := hc'
      rw [hnt] at hc''
      cases hc''
  have h2 : strContains file.path "tests/" = false := by
    cases hx : strContains file.path "tests/"
    · rfl
    · exfalso
      have hc : containsSub (("test" : String).data ++ ("s/" : String).data)
          file.path.data = true := hx
      have hc' := containsSub_pattern_dropRight ("test" : String).data
        ("s/" : String).data file.path.data hc
      have hc'' : strContains file.path "test" = true := hc'
      rw [hnt] at hc''
      cases hc''
  have h3 : strContains file.path "src/test" = false := by
    cases hx : strContains file.path "src/test"
    · rfl
    · exfalso
      have hc : containsSub (("src/" : String).data ++ ("test" : String).data)
          file.path.data = true := hx
      have hc' := containsSub_pattern_dropLeft ("src/" : String).data
        ("test" : String).data file.path.data hc
      have hc'' : strContains file.path "test" = true := hc'
      rw [hnt] at hc''
      cases hc''
  unfold is_java_file is_test_file lines_skip_file
  rw [h1, h2, h3, hnts]
  cases strEndsWith file.path ".java" <;>
    cases strEndsWith file.path "Test.java" <;> rfl

/-- Claim C10 counterexample.  On the path `"a/test/Foo.java"` the
commits-script filter rejects (the path contains `"test/"`) while the
lines-script filter accepts (it only checks the `"src/test"` substring and
the `Test.java` ending): the two filters are not equivalent. -/
theorem filters_disagree_on_test_dir :
    (is_java_file ⟨"a/test/Foo.java"⟩ && !is_test_file ⟨"a/test/Foo.java"⟩) ≠
      !lines_skip_file ⟨"a/test/Foo.java"⟩ := by
  decide

/-- Claim C10 witness: on `"a/Main.java"` (no `"test"` substring, no
`"Tests.java"` ending) the two filters agree. -/
theorem filters_agree_outside_divergent_cases_witness :
    (is_java_file ⟨"a/Main.java"⟩ && !is_test_file ⟨"a/Main.java"⟩) =
      !lines_skip_file ⟨"a/Main.java"⟩ :=
  filters_agree_outside_divergent_cases ⟨"a/Main.java"⟩ (by decide) (by decide)
